import Mathlib

/-! Verification of the diarized-transcript builder embedded from the
speech-to-text route (the `/transcribe` handler): speaker-tag resolution,
segmentation of recognized words into per-speaker segments, segment
closing with whitespace discard, and the short-segment merge pass.

Strings are modelled as lists of characters with JavaScript semantics for
`split(' ')`, `join(' ')` and `trim()`.  Durations are opaque markers
modelled as `Option Nat` (absent = `null`/`undefined`); the JavaScript
`a || b` on duration values is the left-biased `jsOr`, since upstream
duration values are truthy when present.  Speaker tags are integers (the
handler applies `parseInt` to already-integer tags). -/

namespace Diarize

/-- The space character used by `join(' ')`, `split(' ')` and merge
concatenation. -/
def spc : Char := ' '

/-- Whitespace as removed by JavaScript `trim()` (the characters that can
occur in recognizer word text). -/
def isWs (c : Char) : Bool :=
  c == ' ' || c == '\t' || c == '\n' || c == '\r'

/-- View a Lean string literal as the character-list model of a JS string. -/
def asStr (s : String) : List Char := s.toList

/-- One recognized word from the upstream response: `word` text, optional
`speakerTag`, optional timing markers. -/
structure Word where
  word : List Char
  speakerTag : Option Int
  startTime : Option Nat
  endTime : Option Nat
deriving DecidableEq, Repr

/-- An utterance as pushed into `transcriptBySpeaker`: speaker label,
joined transcript, and the segment's timing bounds. -/
structure Utt where
  speaker : List Char
  transcript : List Char
  startTime : Option Nat
  endTime : Option Nat
deriving DecidableEq, Repr

/-- An utterance as pushed into `mergedTranscript` (the final response
shape): only `speaker` and `transcript` fields. -/
structure UttOut where
  speaker : List Char
  transcript : List Char
deriving DecidableEq, Repr

/-- The mutable accumulator `currentSegment` of the segmentation loop. -/
structure Seg where
  words : List Word
  startTime : Option Nat
  endTime : Option Nat
deriving DecidableEq, Repr

/-- The speaker label `` `Speaker ${tag}` ``. -/
def label (t : Int) : List Char := asStr ("Speaker " ++ toString t)

/-- JavaScript `parts.join(' ')`. -/
def joinSp : List (List Char) → List Char
  | [] => []
  | [t] => t
  | t :: u :: r => t ++ spc :: joinSp (u :: r)

/-- Drop trailing whitespace. -/
def dropTrail (l : List Char) : List Char :=
  (l.reverse.dropWhile isWs).reverse

/-- JavaScript `s.trim()`. -/
def jsTrim (l : List Char) : List Char :=
  dropTrail (l.dropWhile isWs)

/-- JavaScript `s.split(' ')`: split on every single space character,
keeping empty fields (`"".split(' ')` is `[""]`). -/
def splitSp : List Char → List (List Char)
  | [] => [[]]
  | c :: r =>
    if c = spc then [] :: splitSp r
    else
      match splitSp r with
      | [] => [[c]]
      | t :: ts => (c :: t) :: ts

/-- `transcript.split(' ').length`, the token count used by the merge
pass. -/
def wordCount (t : List Char) : Nat := (splitSp t).length

/-- Split on every whitespace character, keeping empty fields. -/
def splitWs : List Char → List (List Char)
  | [] => [[]]
  | c :: r =>
    if isWs c then [] :: splitWs r
    else
      match splitWs r with
      | [] => [[c]]
      | t :: ts => (c :: t) :: ts

/-- The whitespace-separated tokens of a string (empty fields dropped):
the notion of "word" used by the round-trip coverage property. -/
def tokens (t : List Char) : List (List Char) := (splitWs t).filter (· ≠ [])

/-- All whitespace tokens of a list of strings, in order. -/
def allTokens (ts : List (List Char)) : List (List Char) :=
  (ts.map tokens).flatten

/-- JavaScript `a || b` on optional duration markers (present upstream
duration values are truthy). -/
def jsOr (a b : Option Nat) : Option Nat :=
  match a with
  | some x => some x
  | none => b

/-- Speaker-tag resolution for one word: use its own tag when present,
otherwise scan backward over the already-processed words (given in
most-recent-first order) for the nearest prior tag, otherwise default
to speaker `1`. -/
def resolveTag (prevRev : List Word) (w : Word) : Int :=
  match w.speakerTag with
  | some t => t
  | none => (prevRev.findSome? (fun v => v.speakerTag)).getD 1

/-- `currentSegment.words.map(w => w.word).join(' ').trim()`. -/
def segTranscript (seg : Seg) : List Char :=
  jsTrim (joinSp (seg.words.map (·.word)))

/-- Closing the current segment: when a speaker tag is set and the
segment is non-empty, push an utterance unless the joined-and-trimmed
transcript is empty (in which case the segment is discarded). -/
def closeSeg (tag? : Option Int) (seg : Seg) (out : List Utt) : List Utt :=
  match tag? with
  | none => out
  | some tg =>
    if seg.words.length = 0 then out
    else
      if segTranscript seg = [] then out
      else out ++ [⟨label tg, segTranscript seg, seg.startTime, seg.endTime⟩]

/-- The segmentation loop as a fold: `ws` are the words still to process,
`prevRev` the already-processed words most-recent-first, `tag?` is
`currentSpeakerTag`, `seg` is `currentSegment`, `out` is
`transcriptBySpeaker` so far. -/
def segLoop : List Word → List Word → Option Int → Seg → List Utt → List Utt
  | [], _, tag?, seg, out => closeSeg tag? seg out
  | w :: ws, prevRev, tag?, seg, out =>
    if tag? = some (resolveTag prevRev w) then
      segLoop ws (w :: prevRev) tag?
        ⟨seg.words ++ [w], seg.startTime, jsOr w.endTime seg.endTime⟩ out
    else
      segLoop ws (w :: prevRev) (some (resolveTag prevRev w))
        ⟨[w], w.startTime, w.endTime⟩ (closeSeg tag? seg out)

/-- The `transcriptBySpeaker` array produced by the segmentation loop. -/
def transcriptBySpeaker (words : List Word) : List Utt :=
  segLoop words [] none ⟨[], none, none⟩ []

/-- The in-place update of `transcriptBySpeaker[i+1]` performed when the
merge pass merges `current` into `next`. -/
def mergeNext (current next : Utt) : Utt :=
  { speaker := next.speaker
    transcript := current.transcript ++ spc :: next.transcript
    startTime := jsOr current.startTime next.startTime
    endTime := next.endTime }

/-- The merge loop with the current element explicit: the JavaScript
loop only ever reads `transcriptBySpeaker[i]` and `[i+1]` and mutates
`[i+1]`, so it is a fold carrying the current element.  A current
element with fewer than 3 space-separated tokens followed by a
same-speaker element is folded into its successor (via `mergeNext`) and
skipped; all other elements are emitted with only `speaker` and
`transcript`. -/
def mergeRun : Utt → List Utt → List UttOut
  | u, [] => [⟨u.speaker, u.transcript⟩]
  | u, v :: rest =>
    if wordCount u.transcript < 3 ∧ u.speaker = v.speaker then
      mergeRun (mergeNext u v) rest
    else
      ⟨u.speaker, u.transcript⟩ :: mergeRun v rest

/-- The `mergedTranscript` array: the merge pass over the whole
`transcriptBySpeaker` array. -/
def mergedTranscript : List Utt → List UttOut
  | [] => []
  | u :: rest => mergeRun u rest

/-- The whole diarization block of the handler: empty word list short
circuits to an empty transcript, otherwise segmentation followed by the
merge pass. -/
def buildTranscript (words : List Word) : List UttOut :=
  if words.length = 0 then [] else mergedTranscript (transcriptBySpeaker words)

/-! ### Index-based transliteration

The JavaScript loops are indexed (`for (let i = 0; ...)`) with raw array
subscripts and in-place mutation of `transcriptBySpeaker[i+1]`.  The
following versions transliterate that shape directly, with every array
subscript modelled as a fallible lookup that signals an error when out
of range (the only way the handler's diarization block could ever
throw).  The refinement theorem for the safety claim shows they always
succeed and agree with the fold versions above. -/

/-- The backward scan `for (let j = i - 1; j >= 0; j--)` over the
original `words` array, looking for the nearest prior speaker tag;
argument is `j + 1` so `scanBack words i` starts at index `i - 1`. -/
def scanBack (words : List Word) : Nat → Except String (Option Int)
  | 0 => .ok none
  | j + 1 =>
    match words[j]? with
    | none => .error "index out of range"
    | some v =>
      match v.speakerTag with
      | some t => .ok (some t)
      | none => scanBack words j

/-- Indexed speaker-tag resolution for the word at position `i`. -/
def resolveTagE (words : List Word) (i : Nat) (w : Word) : Except String Int :=
  match w.speakerTag with
  | some t => .ok t
  | none =>
    match scanBack words i with
    | .error e => .error e
    | .ok (some t) => .ok t
    | .ok none => .ok 1

/-- The indexed segmentation loop `for (let i = 0; i < words.length; i++)`. -/
def segLoopE (words : List Word) (i : Nat) (tag? : Option Int) (seg : Seg)
    (out : List Utt) : Except String (List Utt) :=
  if _h : i < words.length then
    match words[i]? with
    | none => .error "index out of range"
    | some w =>
      match resolveTagE words i w with
      | .error e => .error e
      | .ok t =>
        if tag? = some t then
          segLoopE words (i + 1) tag?
            ⟨seg.words ++ [w], seg.startTime, jsOr w.endTime seg.endTime⟩ out
        else
          segLoopE words (i + 1) (some t) ⟨[w], w.startTime, w.endTime⟩
            (closeSeg tag? seg out)
  else .ok (closeSeg tag? seg out)
termination_by words.length - i
decreasing_by
  · omega
  · omega

/-- The indexed merge loop over the (mutated) `transcriptBySpeaker`
array, with the guard `i < transcriptBySpeaker.length - 1` before the
lookahead subscript. -/
def mergeFromE (arr : List Utt) (i : Nat) : Except String (List UttOut) :=
  if _h : i < arr.length then
    match arr[i]? with
    | none => .error "index out of range"
    | some current =>
      if i < arr.length - 1 then
        match arr[i + 1]? with
        | none => .error "index out of range"
        | some next =>
          if wordCount current.transcript < 3 ∧ current.speaker = next.speaker then
            mergeFromE (arr.set (i + 1) (mergeNext current next)) (i + 1)
          else
            match mergeFromE arr (i + 1) with
            | .error e => .error e
            | .ok rest => .ok (⟨current.speaker, current.transcript⟩ :: rest)
      else
        match mergeFromE arr (i + 1) with
        | .error e => .error e
        | .ok rest => .ok (⟨current.speaker, current.transcript⟩ :: rest)
  else .ok []
termination_by arr.length - i
decreasing_by
  · simp only [List.length_set]; omega
  · omega
  · omega

/-- The whole diarization block in transliterated form. -/
def diarizeE (words : List Word) : Except String (List UttOut) :=
  if words.length = 0 then .ok []
  else
    match segLoopE words 0 none ⟨[], none, none⟩ [] with
    | .error e => .error e
    | .ok arr => mergeFromE arr 0

/-! ### Predicates used by the claims -/

/-- True unless the optional character is whitespace. -/
def noWsEdge : Option Char → Bool
  | none => true
  | some c => !isWs c

/-- True when the string contains no two consecutive space characters. -/
def noDbl : List Char → Bool
  | [] => true
  | [_] => true
  | a :: b :: r => !(a == spc && b == spc) && noDbl (b :: r)

/-- A transcript is well spaced when it has no leading whitespace, no
trailing whitespace, and no two consecutive space characters. -/
def spacingOk (t : List Char) : Prop :=
  noWsEdge t.head? = true ∧ noWsEdge t.getLast? = true ∧ noDbl t = true

instance (t : List Char) : Decidable (spacingOk t) :=
  inferInstanceAs (Decidable (noWsEdge t.head? = true ∧
    noWsEdge t.getLast? = true ∧ noDbl t = true))

/-- A transcript has join shape when it is a single-space join of a
non-empty list of non-empty whitespace-free blocks. -/
def JoinShape (t : List Char) : Prop :=
  ∃ ts : List (List Char), ts ≠ [] ∧
    (∀ s ∈ ts, s ≠ [] ∧ ∀ c ∈ s, isWs c = false) ∧ t = joinSp ts

/-- A string has visible content when some character is not whitespace. -/
def hasContent (t : List Char) : Bool := t.any (fun c => !isWs c)

/-! ### Lemmas on the string model -/

theorem splitSp_ne_nil (t : List Char) : splitSp t ≠ [] := by
  induction t with
  | nil => simp [splitSp]
  | cons c r ih =>
    by_cases hc : c = spc
    · simp [splitSp, hc]
    · simp only [splitSp, if_neg hc]
      cases h : splitSp r with
      | nil => simp
      | cons t ts => simp

theorem splitSp_sep_append (a b : List Char) :
    splitSp (a ++ spc :: b) = splitSp a ++ splitSp b := by
  induction a with
  | nil => simp [splitSp]
  | cons c a ih =>
    by_cases hc : c = spc
    · subst hc; simp [splitSp, ih]
    · simp only [List.cons_append, splitSp, if_neg hc, List.append_eq]
      rw [ih]
      cases h : splitSp a with
      | nil => exact absurd h (splitSp_ne_nil a)
      | cons t ts => simp

theorem wordCount_sep (a b : List Char) :
    wordCount (a ++ spc :: b) = wordCount a + wordCount b := by
  simp [wordCount, splitSp_sep_append]

theorem splitWs_ne_nil (t : List Char) : splitWs t ≠ [] := by
  induction t with
  | nil => simp [splitWs]
  | cons c r ih =>
    by_cases hc : isWs c
    · simp [splitWs, hc]
    · simp only [splitWs, if_neg hc]
      cases h : splitWs r with
      | nil => simp
      | cons t ts => simp

theorem splitWs_ws_append {c : Char} (hc : isWs c = true) (a b : List Char) :
    splitWs (a ++ c :: b) = splitWs a ++ splitWs b := by
  induction a with
  | nil => simp [splitWs, hc]
  | cons d a ih =>
    by_cases hd : isWs d
    · simp [splitWs, hd, ih]
    · simp only [List.cons_append, splitWs, if_neg hd, List.append_eq]
      rw [ih]
      cases h : splitWs a with
      | nil => exact absurd h (splitWs_ne_nil a)
      | cons t ts => simp

theorem tokens_nil : tokens [] = [] := by simp [tokens, splitWs]

theorem tokens_ws_append {c : Char} (hc : isWs c = true) (a b : List Char) :
    tokens (a ++ c :: b) = tokens a ++ tokens b := by
  simp [tokens, splitWs_ws_append hc]

theorem tokens_ws_cons {c : Char} (hc : isWs c = true) (b : List Char) :
    tokens (c :: b) = tokens b := by
  simpa using tokens_ws_append hc [] b

theorem tokens_eq_nil_iff (l : List Char) :
    tokens l = [] ↔ ∀ c ∈ l, isWs c = true := by
  induction l with
  | nil => simp [tokens_nil]
  | cons c r ih =>
    by_cases hc : isWs c
    · simp [tokens_ws_cons hc, ih, hc]
    · constructor
      · intro h
        exfalso
        simp only [tokens, splitWs, if_neg hc] at h
        cases hsp : splitWs r with
        | nil => exact absurd hsp (splitWs_ne_nil r)
        | cons t ts => simp [hsp, List.filter_cons] at h
      · intro h
        exact absurd (h c (by simp)) (by simpa using hc)

theorem tokens_all_ws {l : List Char} (h : ∀ c ∈ l, isWs c = true) :
    tokens l = [] := (tokens_eq_nil_iff l).mpr h

theorem tokens_append_all_ws {b : List Char} (h : ∀ c ∈ b, isWs c = true)
    (a : List Char) : tokens (a ++ b) = tokens a := by
  cases b with
  | nil => simp
  | cons c b =>
    have hc : isWs c = true := h c (by simp)
    have hb : tokens b = [] :=
      tokens_all_ws (fun d hd => h d (List.mem_cons_of_mem _ hd))
    rw [tokens_ws_append hc a b, hb, List.append_nil]

theorem tokens_dropWhile_ws (l : List Char) :
    tokens (l.dropWhile isWs) = tokens l := by
  induction l with
  | nil => simp
  | cons c r ih =>
    by_cases hc : isWs c
    · rw [List.dropWhile_cons_of_pos hc, ih, tokens_ws_cons hc]
    · rw [List.dropWhile_cons_of_neg (by simpa using hc)]

theorem tokens_dropTrail (l : List Char) : tokens (dropTrail l) = tokens l := by
  have hdecomp : l = dropTrail l ++ (l.reverse.takeWhile isWs).reverse := by
    unfold dropTrail
    rw [← List.reverse_append, List.takeWhile_append_dropWhile, List.reverse_reverse]
  conv_rhs => rw [hdecomp]
  rw [tokens_append_all_ws]
  intro c hc
  rw [List.mem_reverse] at hc
  exact List.mem_takeWhile_imp hc

theorem tokens_jsTrim (l : List Char) : tokens (jsTrim l) = tokens l := by
  unfold jsTrim
  rw [tokens_dropTrail, tokens_dropWhile_ws]

theorem tokens_joinSp (ts : List (List Char)) :
    tokens (joinSp ts) = allTokens ts := by
  match ts with
  | [] => simp [joinSp, allTokens, tokens_nil]
  | [t] => simp [joinSp, allTokens]
  | t :: u :: r =>
    have hspc : isWs spc = true := by decide
    rw [joinSp, tokens_ws_append hspc, tokens_joinSp (u :: r)]
    simp [allTokens]

theorem tokens_segTranscript (seg : Seg) :
    tokens (segTranscript seg) = allTokens (seg.words.map (·.word)) := by
  unfold segTranscript
  rw [tokens_jsTrim, tokens_joinSp]

/-! ### Token conservation through segmentation and merging -/

theorem closeSeg_tokens (tag? : Option Int) (seg : Seg) (out : List Utt)
    (hinv : tag? = none → seg.words = []) :
    allTokens ((closeSeg tag? seg out).map (·.transcript)) =
      allTokens (out.map (·.transcript)) ++ allTokens (seg.words.map (·.word)) := by
  cases tag? with
  | none => simp [closeSeg, hinv rfl, allTokens]
  | some tg =>
    by_cases h0 : seg.words.length = 0
    · have hw : seg.words = [] := List.length_eq_zero.mp h0
      simp [closeSeg, h0, hw, allTokens]
    · by_cases ht : segTranscript seg = []
      · have hk : allTokens (seg.words.map (·.word)) = [] := by
          rw [← tokens_segTranscript, ht, tokens_nil]
        simp [closeSeg, h0, ht, hk]
      · have hk := tokens_segTranscript seg
        simp only [closeSeg, if_neg h0, if_neg ht, List.map_append, List.map_cons,
          List.map_nil, allTokens, List.flatten_append, List.flatten_cons,
          List.flatten_nil, List.append_nil]
        rw [hk]; rfl

theorem segLoop_tokens (ws : List Word) : ∀ (prevRev : List Word)
    (tag? : Option Int) (seg : Seg) (out : List Utt),
    (tag? = none → seg.words = []) →
    allTokens ((segLoop ws prevRev tag? seg out).map (·.transcript)) =
      allTokens (out.map (·.transcript)) ++ allTokens (seg.words.map (·.word)) ++
        allTokens (ws.map (·.word)) := by
  induction ws with
  | nil =>
    intro prevRev tag? seg out hinv
    simp only [segLoop]
    rw [closeSeg_tokens _ _ _ hinv]
    simp [allTokens]
  | cons w ws ih =>
    intro prevRev tag? seg out hinv
    by_cases h : tag? = some (resolveTag prevRev w)
    · rw [segLoop, if_pos h]
      rw [ih _ _ _ _ (by intro hn; rw [hn] at h; cases h)]
      simp [allTokens]
    · rw [segLoop, if_neg h]
      rw [ih _ _ _ _ (by intro hn; cases hn)]
      rw [closeSeg_tokens _ _ _ hinv]
      simp [allTokens]

theorem transcriptBySpeaker_tokens (words : List Word) :
    allTokens ((transcriptBySpeaker words).map (·.transcript)) =
      allTokens (words.map (·.word)) := by
  unfold transcriptBySpeaker
  rw [segLoop_tokens words [] none ⟨[], none, none⟩ [] (fun _ => rfl)]
  simp [allTokens]

theorem tokens_mergeNext (u v : Utt) :
    tokens (mergeNext u v).transcript =
      tokens u.transcript ++ tokens v.transcript := by
  show tokens (u.transcript ++ spc :: v.transcript) = _
  exact tokens_ws_append (by decide) _ _

theorem mergeRun_tokens (l : List Utt) : ∀ u : Utt,
    allTokens ((mergeRun u l).map (·.transcript)) =
      tokens u.transcript ++ allTokens (l.map (·.transcript)) := by
  induction l with
  | nil => intro u; simp [mergeRun, allTokens]
  | cons v rest ih =>
    intro u
    by_cases h : wordCount u.transcript < 3 ∧ u.speaker = v.speaker
    · rw [mergeRun, if_pos h, ih, tokens_mergeNext]
      simp [allTokens]
    · rw [mergeRun, if_neg h]
      simp only [List.map_cons, allTokens, List.flatten_cons] at ih ⊢
      rw [ih]

theorem mergedTranscript_tokens (arr : List Utt) :
    allTokens ((mergedTranscript arr).map (·.transcript)) =
      allTokens (arr.map (·.transcript)) := by
  cases arr with
  | nil => simp [mergedTranscript]
  | cons u rest =>
    simp only [mergedTranscript]
    rw [mergeRun_tokens]
    simp [allTokens]

theorem buildTranscript_tokens (words : List Word) :
    allTokens ((buildTranscript words).map (·.transcript)) =
      allTokens (words.map (·.word)) := by
  unfold buildTranscript
  by_cases h : words.length = 0
  · have hw : words = [] := List.length_eq_zero.mp h
    simp [h, hw, allTokens]
  · rw [if_neg h, mergedTranscript_tokens, transcriptBySpeaker_tokens]

/-! ### Shape of emitted utterances -/

theorem mem_closeSeg {x : Utt} {tag? : Option Int} {seg : Seg} {out : List Utt}
    (hx : x ∈ closeSeg tag? seg out) :
    x ∈ out ∨ ∃ tg, x.speaker = label tg ∧ x.transcript = segTranscript seg ∧
      x.transcript ≠ [] ∧ seg.words ≠ [] := by
  cases tag? with
  | none => exact Or.inl hx
  | some tg =>
    by_cases h0 : seg.words.length = 0
    · simp only [closeSeg, if_pos h0] at hx
      exact Or.inl hx
    · by_cases ht : segTranscript seg = []
      · simp only [closeSeg, if_neg h0, if_pos ht] at hx
        exact Or.inl hx
      · simp only [closeSeg, if_neg h0, if_neg ht, List.mem_append,
          List.mem_singleton] at hx
        rcases hx with h | h
        · exact Or.inl h
        · subst h
          exact Or.inr ⟨tg, rfl, rfl, ht, fun hw => h0 (by simp [hw])⟩

theorem mem_segLoop {allW : List Word} (ws : List Word) :
    ∀ (prevRev : List Word) (tag? : Option Int) (seg : Seg) (out : List Utt),
    (∀ v ∈ seg.words, v ∈ allW) → (∀ v ∈ ws, v ∈ allW) →
    ∀ x ∈ segLoop ws prevRev tag? seg out,
      x ∈ out ∨ ∃ tg l, l ≠ [] ∧ (∀ v ∈ l, v ∈ allW) ∧ x.speaker = label tg ∧
        x.transcript = jsTrim (joinSp (l.map (·.word))) ∧ x.transcript ≠ [] := by
  induction ws with
  | nil =>
    intro prevRev tag? seg out hseg _ x hx
    simp only [segLoop] at hx
    rcases mem_closeSeg hx with h | ⟨tg, hsp, htr, hne, hwne⟩
    · exact Or.inl h
    · exact Or.inr ⟨tg, seg.words, hwne, hseg, hsp, htr, hne⟩
  | cons w ws ih =>
    intro prevRev tag? seg out hseg hws x hx
    by_cases h : tag? = some (resolveTag prevRev w)
    · rw [segLoop, if_pos h] at hx
      refine ih _ _ _ _ ?_ (fun v hv => hws v (List.mem_cons_of_mem _ hv)) x hx
      intro v hv
      rcases List.mem_append.mp hv with h1 | h1
      · exact hseg v h1
      · rw [List.mem_singleton.mp h1]
        exact hws w (List.mem_cons_self _ _)
    · rw [segLoop, if_neg h] at hx
      rcases ih _ _ _ _
          (by intro v hv; rw [List.mem_singleton.mp hv]
              exact hws w (List.mem_cons_self _ _))
          (fun v hv => hws v (List.mem_cons_of_mem _ hv)) x hx with h1 | h1
      · rcases mem_closeSeg h1 with h2 | ⟨tg, hsp, htr, hne, hwne⟩
        · exact Or.inl h2
        · exact Or.inr ⟨tg, seg.words, hwne, hseg, hsp, htr, hne⟩
      · exact Or.inr h1

theorem transcriptBySpeaker_shape (words : List Word) :
    ∀ x ∈ transcriptBySpeaker words,
      ∃ tg l, l ≠ [] ∧ (∀ v ∈ l, v ∈ words) ∧ x.speaker = label tg ∧
        x.transcript = jsTrim (joinSp (l.map (·.word))) ∧ x.transcript ≠ [] := by
  intro x hx
  rcases mem_segLoop words [] none ⟨[], none, none⟩ []
      (by intro v hv; cases hv) (fun v hv => hv) x hx with h | h
  · cases h
  · exact h

theorem mergeNext_transcript_ne_nil (u v : Utt) :
    (mergeNext u v).transcript ≠ [] := by
  show u.transcript ++ spc :: v.transcript ≠ []
  simp

theorem mergeRun_ne_nil (l : List Utt) : ∀ u : Utt, mergeRun u l ≠ [] := by
  induction l with
  | nil => intro u; simp [mergeRun]
  | cons v rest ih =>
    intro u
    by_cases h : wordCount u.transcript < 3 ∧ u.speaker = v.speaker
    · rw [mergeRun, if_pos h]; exact ih _
    · rw [mergeRun, if_neg h]; simp

theorem mergeRun_transcript_ne_nil (l : List Utt) : ∀ u : Utt,
    u.transcript ≠ [] → (∀ v ∈ l, v.transcript ≠ []) →
    ∀ x ∈ mergeRun u l, x.transcript ≠ [] := by
  induction l with
  | nil =>
    intro u hu _ x hx
    rw [mergeRun, List.mem_singleton] at hx
    subst hx; exact hu
  | cons v rest ih =>
    intro u hu hl x hx
    by_cases h : wordCount u.transcript < 3 ∧ u.speaker = v.speaker
    · rw [mergeRun, if_pos h] at hx
      exact ih (mergeNext u v) (mergeNext_transcript_ne_nil u v)
        (fun y hy => hl y (List.mem_cons_of_mem _ hy)) x hx
    · rw [mergeRun, if_neg h] at hx
      rcases List.mem_cons.mp hx with h1 | h1
      · subst h1; exact hu
      · exact ih v (hl v (List.mem_cons_self _ _))
          (fun y hy => hl y (List.mem_cons_of_mem _ hy)) x h1

theorem mergedTranscript_transcript_ne_nil (arr : List Utt)
    (harr : ∀ v ∈ arr, v.transcript ≠ []) :
    ∀ x ∈ mergedTranscript arr, x.transcript ≠ [] := by
  cases arr with
  | nil => intro x hx; cases hx
  | cons a rest =>
    intro x hx
    exact mergeRun_transcript_ne_nil rest a (harr a (List.mem_cons_self _ _))
      (fun v hv => harr v (List.mem_cons_of_mem _ hv)) x hx

/-! ### Whitespace-free texts -/

theorem splitWs_no_ws {t : List Char} (h : ∀ c ∈ t, isWs c = false) :
    splitWs t = [t] := by
  induction t with
  | nil => simp [splitWs]
  | cons c r ih =>
    have hc : isWs c = false := h c (by simp)
    have hr : splitWs r = [r] := ih (fun d hd => h d (by simp [hd]))
    simp [splitWs, hc, hr]

theorem tokens_no_ws {t : List Char} (h : ∀ c ∈ t, isWs c = false) :
    tokens t = if t = [] then [] else [t] := by
  rw [tokens, splitWs_no_ws h]
  by_cases ht : t = [] <;> simp [ht]

theorem tokens_ne_nil_of_content {t : List Char} (h : hasContent t = true) :
    tokens t ≠ [] := by
  intro hnil
  rw [tokens_eq_nil_iff] at hnil
  rcases List.any_eq_true.mp h with ⟨c, hc, hns⟩
  rw [hnil c hc] at hns
  cases hns

/-! ### Claim C6: non-empty transcripts -/

/-- C6: every utterance in the final output has a non-empty transcript;
a segment whose joined-and-trimmed text is empty is discarded at segment
closing and never reaches the output or the merge pass. -/
theorem c6_output_transcripts_nonempty (words : List Word) :
    ∀ u ∈ buildTranscript words, u.transcript ≠ [] := by
  intro u hu
  unfold buildTranscript at hu
  by_cases h : words.length = 0
  · rw [if_pos h] at hu; cases hu
  · rw [if_neg h] at hu
    refine mergedTranscript_transcript_ne_nil _ ?_ u hu
    intro v hv
    rcases transcriptBySpeaker_shape words v hv with ⟨_, _, _, _, _, _, hne⟩
    exact hne

/-- Witness for C6: the single-word input produces an utterance with a
non-empty transcript; the hypothesis (membership in the output) is
discharged by evaluation. -/
theorem c6_witness :
    (⟨label 1, asStr "hi"⟩ : UttOut) ∈
        buildTranscript [⟨asStr "hi", some 1, none, none⟩] ∧
      (⟨label 1, asStr "hi"⟩ : UttOut).transcript ≠ [] :=
  ⟨by decide, c6_output_transcripts_nonempty
    [⟨asStr "hi", some 1, none, none⟩] _ (by decide)⟩

/-! ### Claim C8: empty input -/

/-- C8: an empty input word sequence produces an empty utterance
sequence as a successful result, not an error (the transliterated
handler answers `ok []`). -/
theorem c8_empty_input_ok :
    buildTranscript [] = [] ∧ diarizeE [] = .ok [] :=
  ⟨rfl, rfl⟩

/-! ### Claim C1: round-trip word coverage -/

/-- C1 counterexample: the single input word whose text is `"a b"` is
non-empty and has visible content (so no segment is discarded), yet
splitting the output transcripts on whitespace yields two words where
the claim predicts exactly the one non-empty input word. -/
theorem c1_counterexample :
    allTokens ((buildTranscript [⟨asStr "a b", some 1, none, none⟩]).map
        (·.transcript)) ≠
      (([⟨asStr "a b", some 1, none, none⟩] : List Word).map (·.word)).filter
        (· ≠ []) ∧
    (∀ w ∈ ([⟨asStr "a b", some 1, none, none⟩] : List Word),
      hasContent w.word = true) := by
  decide

/-- C1 amended: when every input word text is free of whitespace
characters, the whitespace-separated tokens of the output transcripts
are exactly the non-empty input word texts, in order — no word is
dropped or duplicated. -/
theorem c1_round_trip (words : List Word)
    (h : ∀ w ∈ words, ∀ c ∈ w.word, isWs c = false) :
    allTokens ((buildTranscript words).map (·.transcript)) =
      (words.map (·.word)).filter (· ≠ []) := by
  rw [buildTranscript_tokens]
  induction words with
  | nil => simp [allTokens]
  | cons w ws ih =>
    have hw : tokens w.word = if w.word = [] then [] else [w.word] :=
      tokens_no_ws (h w (List.mem_cons_self _ _))
    have hws := ih (fun v hv => h v (List.mem_cons_of_mem _ hv))
    by_cases hnil : w.word = []
    · simp only [List.map_cons, allTokens, List.flatten_cons, hw, if_pos hnil]
      simp only [allTokens] at hws
      rw [hws]
      simp [List.filter_cons, hnil]
    · simp only [List.map_cons, allTokens, List.flatten_cons, hw, if_neg hnil]
      simp only [allTokens] at hws
      rw [hws]
      simp [List.filter_cons, hnil]

/-- Witness for C1: a three-word input with an empty text in the middle;
the tokens of the output transcripts are exactly the two non-empty
texts. -/
theorem c1_witness :
    (∀ w ∈ ([⟨asStr "hello", some 1, none, none⟩, ⟨asStr "", some 1, none, none⟩,
        ⟨asStr "world", some 2, none, none⟩] : List Word),
      ∀ c ∈ w.word, isWs c = false) ∧
    allTokens ((buildTranscript [⟨asStr "hello", some 1, none, none⟩,
        ⟨asStr "", some 1, none, none⟩,
        ⟨asStr "world", some 2, none, none⟩]).map (·.transcript)) =
      (([⟨asStr "hello", some 1, none, none⟩, ⟨asStr "", some 1, none, none⟩,
        ⟨asStr "world", some 2, none, none⟩] : List Word).map (·.word)).filter
        (· ≠ []) :=
  ⟨by decide, c1_round_trip _ (by decide)⟩


/-! ### Claim C4: the merge condition -/

/-- C4 counterexample: the pre-merge transcript "a  b" (reachable from
the word texts ["a", "", "b"]) has only two whitespace-separated tokens,
yet `split(' ')` counts three fields, so the code does not merge it into
the following same-speaker utterance "c d e"; the claim as worded (merge
iff not last, fewer than 3 whitespace-separated tokens, same speaker)
predicts a single merged utterance here. -/
theorem c4_counterexample :
    (tokens (asStr "a  b")).length < 3 ∧
    (⟨label 1, asStr "a  b", none, none⟩ : Utt).speaker =
      (⟨label 1, asStr "c d e", none, none⟩ : Utt).speaker ∧
    transcriptBySpeaker [⟨asStr "a", some 1, none, none⟩,
        ⟨asStr "", some 1, none, none⟩, ⟨asStr "b", some 1, none, none⟩,
        ⟨asStr " ", some 2, none, none⟩, ⟨asStr "c", some 1, none, none⟩,
        ⟨asStr "d", some 1, none, none⟩, ⟨asStr "e", some 1, none, none⟩] =
      [⟨label 1, asStr "a  b", none, none⟩,
        ⟨label 1, asStr "c d e", none, none⟩] ∧
    mergedTranscript [⟨label 1, asStr "a  b", none, none⟩,
        ⟨label 1, asStr "c d e", none, none⟩] =
      [⟨label 1, asStr "a  b"⟩, ⟨label 1, asStr "c d e"⟩] ∧
    (mergedTranscript [⟨label 1, asStr "a  b", none, none⟩,
        ⟨label 1, asStr "c d e", none, none⟩]).length ≠ 1 := by
  decide

/-- C4 amended: in the merge pass, the current element is merged into
its successor exactly when it is not the last element, its transcript
splits on single spaces into fewer than 3 fields (`split(' ').length`,
counting empty fields and not splitting on other whitespace) and the
successor carries the same speaker label; the merge prepends the current
transcript plus one separating space to the successor; the last element,
and any element whose successor has a different speaker label, is
emitted unchanged. -/
theorem c4_merge_condition (u v : Utt) (rest : List Utt) :
    mergedTranscript (u :: v :: rest) =
      (if wordCount u.transcript < 3 ∧ u.speaker = v.speaker then
        mergedTranscript (mergeNext u v :: rest)
      else ⟨u.speaker, u.transcript⟩ :: mergedTranscript (v :: rest)) ∧
    (mergeNext u v).transcript = u.transcript ++ spc :: v.transcript ∧
    mergedTranscript [u] = [⟨u.speaker, u.transcript⟩] := by
  refine ⟨?_, rfl, rfl⟩
  by_cases h : wordCount u.transcript < 3 ∧ u.speaker = v.speaker
  · rw [if_pos h]
    simp [mergedTranscript, mergeRun, if_pos h]
  · rw [if_neg h]
    simp [mergedTranscript, mergeRun, if_neg h]

/-! ### Claim C2: three consecutive short same-speaker segments -/

/-- C2 counterexample: an input producing three consecutive Speaker 1
utterances "a b", "c d", "e f" (each under 3 tokens).  The first merge
makes "a b c d", which has 4 tokens, so the chain stalls: the merge pass
returns two utterances, not the single combined one the claim
predicts. -/
theorem c2_counterexample :
    (∀ u ∈ transcriptBySpeaker [⟨asStr "a", some 1, none, none⟩,
        ⟨asStr "b", some 1, none, none⟩, ⟨asStr " ", some 2, none, none⟩,
        ⟨asStr "c", some 1, none, none⟩, ⟨asStr "d", some 1, none, none⟩,
        ⟨asStr " ", some 2, none, none⟩, ⟨asStr "e", some 1, none, none⟩,
        ⟨asStr "f", some 1, none, none⟩],
      wordCount u.transcript < 3 ∧ u.speaker = label 1) ∧
    (transcriptBySpeaker [⟨asStr "a", some 1, none, none⟩,
        ⟨asStr "b", some 1, none, none⟩, ⟨asStr " ", some 2, none, none⟩,
        ⟨asStr "c", some 1, none, none⟩, ⟨asStr "d", some 1, none, none⟩,
        ⟨asStr " ", some 2, none, none⟩, ⟨asStr "e", some 1, none, none⟩,
        ⟨asStr "f", some 1, none, none⟩]).length = 3 ∧
    buildTranscript [⟨asStr "a", some 1, none, none⟩,
        ⟨asStr "b", some 1, none, none⟩, ⟨asStr " ", some 2, none, none⟩,
        ⟨asStr "c", some 1, none, none⟩, ⟨asStr "d", some 1, none, none⟩,
        ⟨asStr " ", some 2, none, none⟩, ⟨asStr "e", some 1, none, none⟩,
        ⟨asStr "f", some 1, none, none⟩] =
      [⟨label 1, asStr "a b c d"⟩, ⟨label 1, asStr "e f"⟩] := by
  decide

/-- C2 amended: a run of exactly three consecutive same-speaker
utterances merges into one combined utterance provided the combined
token count of the first two transcripts is still under 3 (e.g. each a
single token); each merge feeds the next iteration's lookahead. -/
theorem c2_three_short_merge (u1 u2 u3 : Utt)
    (hsp1 : u1.speaker = u2.speaker) (hsp2 : u2.speaker = u3.speaker)
    (hc1 : wordCount u1.transcript < 3)
    (hc12 : wordCount u1.transcript + wordCount u2.transcript < 3) :
    mergedTranscript [u1, u2, u3] =
      [⟨u3.speaker,
        u1.transcript ++ spc :: u2.transcript ++ spc :: u3.transcript⟩] := by
  rw [mergedTranscript, mergeRun, if_pos ⟨hc1, hsp1⟩]
  have hc2 : wordCount (mergeNext u1 u2).transcript < 3 := by
    show wordCount (u1.transcript ++ spc :: u2.transcript) < 3
    rw [wordCount_sep]; exact hc12
  have hsp' : (mergeNext u1 u2).speaker = u3.speaker := hsp2
  rw [mergeRun, if_pos ⟨hc2, hsp'⟩, mergeRun]
  simp [mergeNext]

/-- Witness for C2: three single-token same-speaker utterances collapse
to one. -/
theorem c2_witness :
    ((label 1 : List Char) = label 1 ∧ wordCount (asStr "a") < 3 ∧
      wordCount (asStr "a") + wordCount (asStr "b") < 3) ∧
    mergedTranscript [⟨label 1, asStr "a", none, none⟩,
        ⟨label 1, asStr "b", none, none⟩,
        ⟨label 1, asStr "c", none, none⟩] =
      [⟨label 1, asStr "a" ++ spc :: asStr "b" ++ spc :: asStr "c"⟩] :=
  ⟨⟨rfl, by decide, by decide⟩,
    c2_three_short_merge ⟨label 1, asStr "a", none, none⟩
      ⟨label 1, asStr "b", none, none⟩ ⟨label 1, asStr "c", none, none⟩
      rfl rfl (by decide) (by decide)⟩

/-! ### Claim C3: startTime propagation on merge -/

/-- C3 counterexample: a merge in which both utterances carry a
startTime.  The code writes the current utterance's startTime over the
next one's (`current.startTime || next.startTime`), while the claim says
the next keeps its own value when present. -/
theorem c3_counterexample :
    (wordCount (⟨label 1, asStr "hi", some 1, none⟩ : Utt).transcript < 3 ∧
      (⟨label 1, asStr "hi", some 1, none⟩ : Utt).speaker =
        (⟨label 1, asStr "there now", some 2, none⟩ : Utt).speaker) ∧
    (mergeNext ⟨label 1, asStr "hi", some 1, none⟩
        ⟨label 1, asStr "there now", some 2, none⟩).startTime =
      (⟨label 1, asStr "hi", some 1, none⟩ : Utt).startTime ∧
    (mergeNext ⟨label 1, asStr "hi", some 1, none⟩
        ⟨label 1, asStr "there now", some 2, none⟩).startTime ≠
      (⟨label 1, asStr "there now", some 2, none⟩ : Utt).startTime ∧
    mergedTranscript [⟨label 1, asStr "hi", some 1, none⟩,
        ⟨label 1, asStr "there now", some 2, none⟩] =
      [⟨label 1, asStr "hi there now"⟩] := by
  decide

/-- C3 amended: when the merge pass merges a short utterance into the
following same-speaker utterance, the current utterance's startTime is
written into the next whenever the current one is present, overwriting
any value the next already had; the next utterance's own startTime is
kept only when the current one's is absent. -/
theorem c3_startTime_propagation (u v : Utt) (rest : List Utt)
    (hm : wordCount u.transcript < 3 ∧ u.speaker = v.speaker) :
    mergedTranscript (u :: v :: rest) =
      mergedTranscript (mergeNext u v :: rest) ∧
    (∀ s, u.startTime = some s → (mergeNext u v).startTime = some s) ∧
    (u.startTime = none → (mergeNext u v).startTime = v.startTime) := by
  refine ⟨?_, ?_, ?_⟩
  · simp [mergedTranscript, mergeRun, if_pos hm]
  · intro s hs; simp [mergeNext, jsOr, hs]
  · intro hs; simp [mergeNext, jsOr, hs]

/-- Witness for C3 at a concrete merge. -/
theorem c3_witness :
    (wordCount (⟨label 2, asStr "uh", some 4, none⟩ : Utt).transcript < 3 ∧
      (⟨label 2, asStr "uh", some 4, none⟩ : Utt).speaker =
        (⟨label 2, asStr "huh", none, none⟩ : Utt).speaker) ∧
    (mergedTranscript [⟨label 2, asStr "uh", some 4, none⟩,
        ⟨label 2, asStr "huh", none, none⟩] =
      mergedTranscript [mergeNext ⟨label 2, asStr "uh", some 4, none⟩
        ⟨label 2, asStr "huh", none, none⟩] ∧
    (∀ s, (⟨label 2, asStr "uh", some 4, none⟩ : Utt).startTime = some s →
      (mergeNext ⟨label 2, asStr "uh", some 4, none⟩
        ⟨label 2, asStr "huh", none, none⟩).startTime = some s) ∧
    ((⟨label 2, asStr "uh", some 4, none⟩ : Utt).startTime = none →
      (mergeNext ⟨label 2, asStr "uh", some 4, none⟩
        ⟨label 2, asStr "huh", none, none⟩).startTime =
        (⟨label 2, asStr "huh", none, none⟩ : Utt).startTime)) :=
  ⟨by decide, c3_startTime_propagation ⟨label 2, asStr "uh", some 4, none⟩
    ⟨label 2, asStr "huh", none, none⟩ [] (by decide)⟩


/-! ### Claim C10: the last pre-merge utterance survives -/

theorem getLast?_cons_of_ne_nil {A : Type} (a : A) {l : List A} (h : l ≠ []) :
    (a :: l).getLast? = l.getLast? := by
  cases l with
  | nil => exact absurd rfl h
  | cons b m => exact List.getLast?_cons_cons

theorem mergeRun_getLast (l : List Utt) : ∀ u v : Utt,
    (u :: l).getLast? = some v →
    ∃ x p, (mergeRun u l).getLast? = some x ∧
      x.speaker = v.speaker ∧ x.transcript = p ++ v.transcript := by
  induction l with
  | nil =>
    intro u v hv
    have huv : u = v := by simpa using hv
    subst huv
    exact ⟨⟨u.speaker, u.transcript⟩, [], by simp [mergeRun], rfl, rfl⟩
  | cons w rest ih =>
    intro u v hv
    have hv' : (w :: rest).getLast? = some v := by
      rw [← List.getLast?_cons_cons (a := u)]; exact hv
    by_cases h : wordCount u.transcript < 3 ∧ u.speaker = w.speaker
    · rw [mergeRun, if_pos h]
      cases rest with
      | nil =>
        have hwv : w = v := by simpa using hv'
        subst hwv
        obtain ⟨x, p, h1, h2, h3⟩ := ih (mergeNext u w) (mergeNext u w) (by simp)
        refine ⟨x, p ++ u.transcript ++ [spc], h1, h2, ?_⟩
        rw [h3]
        simp [mergeNext, List.append_assoc]
      | cons r rs =>
        refine ih (mergeNext u w) v ?_
        rw [List.getLast?_cons_cons]
        rw [List.getLast?_cons_cons] at hv'
        exact hv'
    · rw [mergeRun, if_neg h]
      obtain ⟨x, p, h1, h2, h3⟩ := ih w v hv'
      exact ⟨x, p,
        by rw [getLast?_cons_of_ne_nil _ (mergeRun_ne_nil rest w)]; exact h1,
        h2, h3⟩

/-- C10: the merge pass never drops the final pre-merge utterance: the
last output element carries its speaker and ends with its transcript
(earlier short transcripts possibly prepended); and any input
containing a word with visible content yields a non-empty output. -/
theorem c10_last_kept_and_output_nonempty (arr : List Utt) (words : List Word) :
    (∀ v, arr.getLast? = some v →
      ∃ x p, (mergedTranscript arr).getLast? = some x ∧
        x.speaker = v.speaker ∧ x.transcript = p ++ v.transcript) ∧
    ((∃ w, w ∈ words ∧ hasContent w.word = true) →
      buildTranscript words ≠ []) := by
  constructor
  · intro v hv
    cases arr with
    | nil => cases hv
    | cons a rest => exact mergeRun_getLast rest a v hv
  · rintro ⟨w, hw, hc⟩ hnil
    have htk := buildTranscript_tokens words
    rw [hnil] at htk
    have h2 : allTokens (words.map (·.word)) = [] := by
      simpa [allTokens] using htk.symm
    have h3 : tokens w.word = [] := by
      rw [allTokens, List.flatten_eq_nil_iff] at h2
      exact h2 _ (List.mem_map_of_mem _ (List.mem_map_of_mem _ hw))
    exact tokens_ne_nil_of_content hc h3

/-- Witness for C10 at concrete inputs. -/
theorem c10_witness :
    (∃ x p, (mergedTranscript [⟨label 1, asStr "hm", none, none⟩,
        ⟨label 1, asStr "right then sir", none, none⟩]).getLast? = some x ∧
      x.speaker = (⟨label 1, asStr "right then sir", none, none⟩ : Utt).speaker ∧
      x.transcript =
        p ++ (⟨label 1, asStr "right then sir", none, none⟩ : Utt).transcript) ∧
    buildTranscript [⟨asStr "yo", some 1, none, none⟩] ≠ [] :=
  ⟨(c10_last_kept_and_output_nonempty [⟨label 1, asStr "hm", none, none⟩,
      ⟨label 1, asStr "right then sir", none, none⟩]
      [⟨asStr "yo", some 1, none, none⟩]).1 _ (by decide),
    (c10_last_kept_and_output_nonempty [⟨label 1, asStr "hm", none, none⟩,
      ⟨label 1, asStr "right then sir", none, none⟩]
      [⟨asStr "yo", some 1, none, none⟩]).2
      ⟨⟨asStr "yo", some 1, none, none⟩, by decide, by decide⟩⟩


/-! ### Claim C5: speaker-tag resolution -/

theorem findSome?_tag_eq_none {a : List Word}
    (h : ∀ v ∈ a, v.speakerTag = none) :
    a.findSome? (fun v => v.speakerTag) = none := by
  induction a with
  | nil => rfl
  | cons u m ih =>
    have hu : u.speakerTag = none := h u (List.mem_cons_self _ _)
    simp only [List.findSome?]
    rw [hu]
    exact ih (fun v hv => h v (List.mem_cons_of_mem _ hv))

theorem findSome?_tag_append_none {a : List Word}
    (h : ∀ v ∈ a, v.speakerTag = none) (b : List Word) :
    (a ++ b).findSome? (fun v => v.speakerTag) =
      b.findSome? (fun v => v.speakerTag) := by
  induction a with
  | nil => rfl
  | cons u m ih =>
    have hu : u.speakerTag = none := h u (List.mem_cons_self _ _)
    simp only [List.cons_append, List.findSome?]
    rw [hu]
    exact ih (fun v hv => h v (List.mem_cons_of_mem _ hv))

theorem segLoop_all_none (ws : List Word) : ∀ (prevRev : List Word) (seg : Seg)
    (out : List Utt), (∀ v ∈ ws, v.speakerTag = none) →
    (∀ v ∈ prevRev, v.speakerTag = none) →
    ∃ en, segLoop ws prevRev (some 1) seg out =
      closeSeg (some 1) ⟨seg.words ++ ws, seg.startTime, en⟩ out := by
  induction ws with
  | nil =>
    intro prevRev seg out _ _
    exact ⟨seg.endTime, by simp [segLoop]⟩
  | cons w ws ih =>
    intro prevRev seg out hws hprev
    have hr : resolveTag prevRev w = 1 := by
      have hw : w.speakerTag = none := hws w (List.mem_cons_self _ _)
      simp [resolveTag, hw, findSome?_tag_eq_none hprev]
    rw [segLoop, hr, if_pos rfl]
    obtain ⟨en, he⟩ := ih (w :: prevRev)
      ⟨seg.words ++ [w], seg.startTime, jsOr w.endTime seg.endTime⟩ out
      (fun v hv => hws v (List.mem_cons_of_mem _ hv))
      (by intro v hv
          rcases List.mem_cons.mp hv with h1 | h1
          · subst h1; exact hws v (List.mem_cons_self _ _)
          · exact hprev v h1)
    refine ⟨en, ?_⟩
    rw [he]
    simp [List.append_assoc]

/-- C5: a word's resolved speaker tag is its own tag when present;
otherwise the tag of the nearest prior word that carried one (the first
tagged entry of the most-recent-first list of already-processed words);
otherwise the default identifier 1.  Consequently an all-untagged input
with non-blank text yields a single utterance attributed to
Speaker 1. -/
theorem c5_tag_resolution :
    (∀ (prevRev : List Word) (w : Word) (t : Int),
      w.speakerTag = some t → resolveTag prevRev w = t) ∧
    (∀ (a b : List Word) (v w : Word) (t : Int),
      w.speakerTag = none → (∀ u ∈ a, u.speakerTag = none) →
      v.speakerTag = some t → resolveTag (a ++ v :: b) w = t) ∧
    (∀ (prevRev : List Word) (w : Word),
      w.speakerTag = none → (∀ u ∈ prevRev, u.speakerTag = none) →
      resolveTag prevRev w = 1) ∧
    (∀ words : List Word,
      (∀ v ∈ words, v.speakerTag = none) →
      jsTrim (joinSp (words.map (·.word))) ≠ [] →
      buildTranscript words =
        [⟨label 1, jsTrim (joinSp (words.map (·.word)))⟩]) := by
  refine ⟨?_, ?_, ?_, ?_⟩
  · intro prevRev w t ht
    simp [resolveTag, ht]
  · intro a b v w t hw ha hv
    simp only [resolveTag]
    rw [hw, findSome?_tag_append_none ha]
    simp [List.findSome?, hv]
  · intro prevRev w hw hprev
    simp only [resolveTag]
    rw [hw, findSome?_tag_eq_none hprev]
    rfl
  · intro words hall hne
    cases words with
    | nil => exact absurd (by simp [joinSp, jsTrim, dropTrail]) hne
    | cons w ws =>
      have hw : w.speakerTag = none := hall w (List.mem_cons_self _ _)
      have hr : resolveTag [] w = 1 := by
        simp [resolveTag, hw, List.findSome?]
      unfold buildTranscript
      rw [if_neg (by simp)]
      unfold transcriptBySpeaker
      rw [segLoop, hr, if_neg (by simp)]
      obtain ⟨en, he⟩ := segLoop_all_none ws [w]
        ⟨[w], w.startTime, w.endTime⟩ (closeSeg none ⟨[], none, none⟩ [])
        (fun v hv => hall v (List.mem_cons_of_mem _ hv))
        (by intro v hv
            rw [List.mem_singleton] at hv
            subst hv; exact hw)
      rw [he]
      show mergedTranscript (closeSeg (some 1) ⟨w :: ws, w.startTime, en⟩ []) =
        [⟨label 1, jsTrim (joinSp ((w :: ws).map (·.word)))⟩]
      rw [closeSeg]
      rw [if_neg (by simp)]
      rw [if_neg (by exact hne)]
      simp [mergedTranscript, mergeRun]
      rfl

/-- Witness for C5 at concrete inputs exercising each resolution rule
and the all-untagged case. -/
theorem c5_witness :
    resolveTag [⟨asStr "x", some 7, none, none⟩]
      ⟨asStr "y", some 3, none, none⟩ = 3 ∧
    resolveTag ([⟨asStr "p", none, none, none⟩] ++
        ⟨asStr "q", some 5, none, none⟩ :: [⟨asStr "r", some 9, none, none⟩])
      ⟨asStr "y", none, none, none⟩ = 5 ∧
    resolveTag [⟨asStr "p", none, none, none⟩]
      ⟨asStr "y", none, none, none⟩ = 1 ∧
    buildTranscript [⟨asStr "a", none, none, none⟩,
        ⟨asStr "b", none, none, none⟩] =
      [⟨label 1, jsTrim (joinSp (([⟨asStr "a", none, none, none⟩,
        ⟨asStr "b", none, none, none⟩] : List Word).map (·.word)))⟩] :=
  ⟨c5_tag_resolution.1 _ _ _ rfl,
    c5_tag_resolution.2.1 _ _ _ _ _ rfl (by decide) rfl,
    c5_tag_resolution.2.2.1 _ _ rfl (by decide),
    c5_tag_resolution.2.2.2 _ (by decide) (by decide)⟩


/-! ### Claim C7: well-spaced transcripts -/

theorem head?_append_of_ne_nil {A : Type} {l : List A} (r : List A)
    (h : l ≠ []) : (l ++ r).head? = l.head? := by
  cases l with
  | nil => exact absurd rfl h
  | cons a m => rfl

theorem isWs_spc : isWs spc = true := by decide

theorem ne_spc_of_not_ws {c : Char} (h : isWs c = false) : c ≠ spc := by
  intro hc
  rw [hc, isWs_spc] at h
  cases h

theorem noDbl_of_no_spc {t : List Char} (h : ∀ c ∈ t, isWs c = false) :
    noDbl t = true := by
  induction t with
  | nil => rfl
  | cons c r ih =>
    cases r with
    | nil => rfl
    | cons d m =>
      have hc : c ≠ spc := ne_spc_of_not_ws (h c (by simp))
      have hr := ih (fun x hx => h x (List.mem_cons_of_mem _ hx))
      simp [noDbl, hc, hr]

theorem noDbl_sep_cons {J : List Char} (hJ : noDbl J = true)
    (hJh : noWsEdge J.head? = true) : noDbl (spc :: J) = true := by
  cases J with
  | nil => rfl
  | cons c r =>
    simp only [List.head?_cons, noWsEdge, Bool.not_eq_true'] at hJh
    have hc : c ≠ spc := ne_spc_of_not_ws hJh
    simp [noDbl, hc, hJ]

theorem noDbl_append_sep {t J : List Char}
    (hT : ∀ c ∈ t, isWs c = false) (hJ : noDbl J = true)
    (hJh : noWsEdge J.head? = true) :
    noDbl (t ++ spc :: J) = true := by
  induction t with
  | nil => exact noDbl_sep_cons hJ hJh
  | cons a t ih =>
    have ha : a ≠ spc := ne_spc_of_not_ws (hT a (by simp))
    have ih' := ih (fun c hc => hT c (List.mem_cons_of_mem _ hc))
    cases t with
    | nil =>
      show noDbl (a :: spc :: J) = true
      simp [noDbl, ha, noDbl_sep_cons hJ hJh]
    | cons b t' =>
      have hb : b ≠ spc := ne_spc_of_not_ws (hT b (by simp))
      show noDbl (a :: b :: (t' ++ spc :: J)) = true
      simp only [List.cons_append] at ih'
      simp [noDbl, ha, ih']

theorem noWsEdge_head_of_good {t : List Char} (hne : t ≠ [])
    (hnw : ∀ c ∈ t, isWs c = false) : noWsEdge t.head? = true := by
  cases t with
  | nil => exact absurd rfl hne
  | cons c r => simp [noWsEdge, hnw c (by simp)]

theorem noWsEdge_getLast_of_good {t : List Char} (hne : t ≠ [])
    (hnw : ∀ c ∈ t, isWs c = false) : noWsEdge t.getLast? = true := by
  rw [List.getLast?_eq_getLast t hne]
  simp [noWsEdge, hnw _ (List.getLast_mem hne)]

theorem joinSp_good (ts : List (List Char))
    (hts : ∀ s ∈ ts, s ≠ [] ∧ ∀ c ∈ s, isWs c = false) (hne : ts ≠ []) :
    joinSp ts ≠ [] ∧ noWsEdge (joinSp ts).head? = true ∧
    noWsEdge (joinSp ts).getLast? = true ∧ noDbl (joinSp ts) = true := by
  match ts with
  | [t] =>
    obtain ⟨htne, hnw⟩ := hts t (by simp)
    exact ⟨by simpa [joinSp] using htne, noWsEdge_head_of_good htne hnw,
      noWsEdge_getLast_of_good htne hnw, noDbl_of_no_spc hnw⟩
  | t :: u :: r =>
    obtain ⟨htne, hnw⟩ := hts t (by simp)
    obtain ⟨hJne, hJh, hJl, hJc⟩ := joinSp_good (u :: r)
      (fun s hs => hts s (List.mem_cons_of_mem _ hs)) (by simp)
    have hjoin : joinSp (t :: u :: r) = t ++ spc :: joinSp (u :: r) := rfl
    refine ⟨by simp [hjoin, htne], ?_, ?_, ?_⟩
    · rw [hjoin, head?_append_of_ne_nil _ htne]
      exact noWsEdge_head_of_good htne hnw
    · rw [hjoin, List.getLast?_append_of_ne_nil t (by simp),
        getLast?_cons_of_ne_nil spc hJne]
      exact hJl
    · rw [hjoin]
      exact noDbl_append_sep hnw hJc hJh


theorem joinShape_spacingOk {t : List Char} (h : JoinShape t) : spacingOk t := by
  obtain ⟨ts, hne, hblocks, rfl⟩ := h
  obtain ⟨_, h1, h2, h3⟩ := joinSp_good ts hblocks hne
  exact ⟨h1, h2, h3⟩

theorem jsTrim_eq_self {l : List Char} (h1 : noWsEdge l.head? = true)
    (h2 : noWsEdge l.getLast? = true) : jsTrim l = l := by
  have hd : l.dropWhile isWs = l := by
    cases l with
    | nil => rfl
    | cons c r =>
      simp only [List.head?_cons, noWsEdge, Bool.not_eq_true'] at h1
      rw [List.dropWhile_cons_of_neg (by simp [h1])]
  rw [jsTrim, hd, dropTrail]
  have hr : l.reverse.dropWhile isWs = l.reverse := by
    cases hrev : l.reverse with
    | nil => rfl
    | cons c r =>
      have hgl : l.getLast? = some c := by
        rw [← List.head?_reverse, hrev, List.head?_cons]
      rw [hgl] at h2
      simp only [noWsEdge, Bool.not_eq_true'] at h2
      rw [List.dropWhile_cons_of_neg (by simp [h2])]
  rw [hr, List.reverse_reverse]

theorem transcriptBySpeaker_joinShape (words : List Word)
    (h : ∀ w ∈ words, w.word ≠ [] ∧ ∀ c ∈ w.word, isWs c = false) :
    ∀ x ∈ transcriptBySpeaker words, JoinShape x.transcript := by
  intro x hx
  obtain ⟨tg, l, hlne, hsub, hsp, htr, hne⟩ := transcriptBySpeaker_shape words x hx
  have hblocks : ∀ s ∈ l.map (·.word), s ≠ [] ∧ ∀ c ∈ s, isWs c = false := by
    intro s hs
    rcases List.mem_map.mp hs with ⟨v, hv, rfl⟩
    exact h v (hsub v hv)
  have htsne : l.map (·.word) ≠ [] := by simpa using hlne
  obtain ⟨hJne, hh, hl, hc⟩ := joinSp_good _ hblocks htsne
  refine ⟨l.map (·.word), htsne, hblocks, ?_⟩
  rw [htr, jsTrim_eq_self hh hl]

theorem joinSp_append : ∀ (ts1 ts2 : List (List Char)), ts1 ≠ [] → ts2 ≠ [] →
    joinSp (ts1 ++ ts2) = joinSp ts1 ++ spc :: joinSp ts2
  | [], _, h1, _ => absurd rfl h1
  | [t], ts2, _, h2 => by
    cases ts2 with
    | nil => exact absurd rfl h2
    | cons u r => rfl
  | t :: u :: r, ts2, _, h2 => by
    have ih := joinSp_append (u :: r) ts2 (by simp) h2
    show t ++ spc :: joinSp ((u :: r) ++ ts2) =
      (t ++ spc :: joinSp (u :: r)) ++ spc :: joinSp ts2
    rw [ih]
    simp [List.append_assoc]

theorem joinShape_merge {t1 t2 : List Char} (h1 : JoinShape t1)
    (h2 : JoinShape t2) : JoinShape (t1 ++ spc :: t2) := by
  obtain ⟨a, ha, hba, rfl⟩ := h1
  obtain ⟨b, hb, hbb, rfl⟩ := h2
  refine ⟨a ++ b, by simp [ha], ?_, (joinSp_append a b ha hb).symm⟩
  intro s hs
  rcases List.mem_append.mp hs with h | h
  · exact hba s h
  · exact hbb s h

theorem mergeRun_joinShape (l : List Utt) : ∀ u : Utt,
    JoinShape u.transcript → (∀ v ∈ l, JoinShape v.transcript) →
    ∀ x ∈ mergeRun u l, JoinShape x.transcript := by
  induction l with
  | nil =>
    intro u hu _ x hx
    rw [mergeRun, List.mem_singleton] at hx
    subst hx; exact hu
  | cons v rest ih =>
    intro u hu hl x hx
    by_cases h : wordCount u.transcript < 3 ∧ u.speaker = v.speaker
    · rw [mergeRun, if_pos h] at hx
      exact ih (mergeNext u v)
        (joinShape_merge hu (hl v (List.mem_cons_self _ _)))
        (fun y hy => hl y (List.mem_cons_of_mem _ hy)) x hx
    · rw [mergeRun, if_neg h] at hx
      rcases List.mem_cons.mp hx with h1 | h1
      · subst h1; exact hu
      · exact ih v (hl v (List.mem_cons_self _ _))
          (fun y hy => hl y (List.mem_cons_of_mem _ hy)) x h1

/-- C7 counterexample: a same-speaker segment containing an empty word
text; the join inserts two adjacent spaces, and the output transcript
"a  b" has a double space, refuting the claim as stated over all
inputs. -/
theorem c7_counterexample :
    buildTranscript [⟨asStr "a", some 1, none, none⟩,
        ⟨asStr "", some 1, none, none⟩, ⟨asStr "b", some 1, none, none⟩] =
      [⟨label 1, asStr "a  b"⟩] ∧
    ¬ spacingOk (asStr "a  b") := by
  decide

/-- C7 amended: when every input word text is non-empty and free of
whitespace characters, every output transcript has no leading
whitespace, no trailing whitespace, and no two consecutive space
characters. -/
theorem c7_spacing (words : List Word)
    (h : ∀ w ∈ words, w.word ≠ [] ∧ ∀ c ∈ w.word, isWs c = false) :
    ∀ u ∈ buildTranscript words, spacingOk u.transcript := by
  intro u hu
  unfold buildTranscript at hu
  by_cases hlen : words.length = 0
  · rw [if_pos hlen] at hu; cases hu
  · rw [if_neg hlen] at hu
    have hshape := transcriptBySpeaker_joinShape words h
    cases harr : transcriptBySpeaker words with
    | nil => rw [harr] at hu; cases hu
    | cons a rest =>
      rw [harr] at hu
      rw [harr] at hshape
      refine joinShape_spacingOk (mergeRun_joinShape rest a
        (hshape a (List.mem_cons_self _ _))
        (fun v hv => hshape v (List.mem_cons_of_mem _ hv)) u hu)

/-- Witness for C7 at a concrete input. -/
theorem c7_witness :
    (∀ w ∈ ([⟨asStr "hi", some 1, none, none⟩,
        ⟨asStr "there", some 2, none, none⟩] : List Word),
      w.word ≠ [] ∧ ∀ c ∈ w.word, isWs c = false) ∧
    (⟨label 1, asStr "hi"⟩ : UttOut) ∈
      buildTranscript [⟨asStr "hi", some 1, none, none⟩,
        ⟨asStr "there", some 2, none, none⟩] ∧
    spacingOk (⟨label 1, asStr "hi"⟩ : UttOut).transcript :=
  ⟨by decide, by decide,
    c7_spacing [⟨asStr "hi", some 1, none, none⟩,
      ⟨asStr "there", some 2, none, none⟩] (by decide) _ (by decide)⟩


/-! ### Claim C9: totality of the diarization block -/

theorem scanBack_eq (words : List Word) : ∀ i, i ≤ words.length →
    scanBack words i =
      .ok (((words.take i).reverse).findSome? (fun v => v.speakerTag)) := by
  intro i
  induction i with
  | zero => intro _; rfl
  | succ j ih =>
    intro hle
    have hj : j < words.length := by omega
    have hget : words[j]? = some words[j] := List.getElem?_eq_getElem hj
    have htake : (words.take (j + 1)).reverse =
        words[j] :: (words.take j).reverse := by
      rw [List.take_succ, hget]
      simp
    rw [htake]
    simp only [scanBack, hget, List.findSome?]
    cases hsp : words[j].speakerTag with
    | some t => rfl
    | none => exact ih (by omega)

theorem resolveTagE_eq (words : List Word) (i : Nat) (w : Word)
    (hle : i ≤ words.length) :
    resolveTagE words i w = .ok (resolveTag ((words.take i).reverse) w) := by
  cases hw : w.speakerTag with
  | some t => simp [resolveTagE, resolveTag, hw]
  | none =>
    simp only [resolveTagE, resolveTag, hw]
    rw [scanBack_eq words i hle]
    cases hfs : ((words.take i).reverse).findSome? (fun v => v.speakerTag) with
    | some t => rfl
    | none => rfl

theorem segLoopE_eq (words : List Word) (i : Nat) (tag? : Option Int)
    (seg : Seg) (out : List Utt) (hle : i ≤ words.length) :
    segLoopE words i tag? seg out =
      .ok (segLoop (words.drop i) ((words.take i).reverse) tag? seg out) := by
  by_cases h : i < words.length
  · have hget : words[i]? = some words[i] := List.getElem?_eq_getElem h
    have hdrop : words.drop i = words[i] :: words.drop (i + 1) :=
      List.drop_eq_getElem_cons h
    have htake : (words.take (i + 1)).reverse =
        words[i] :: (words.take i).reverse := by
      rw [List.take_succ, hget]
      simp
    rw [segLoopE, dif_pos h]
    simp only [hget, resolveTagE_eq words i words[i] (le_of_lt h)]
    rw [hdrop, segLoop]
    by_cases hc : tag? = some (resolveTag ((words.take i).reverse) words[i])
    · rw [if_pos hc, if_pos hc]
      rw [segLoopE_eq words (i + 1) tag?
        ⟨seg.words ++ [words[i]], seg.startTime,
          jsOr words[i].endTime seg.endTime⟩ out (by omega)]
      rw [htake]
    · rw [if_neg hc, if_neg hc]
      rw [segLoopE_eq words (i + 1)
        (some (resolveTag ((words.take i).reverse) words[i]))
        ⟨[words[i]], words[i].startTime, words[i].endTime⟩
        (closeSeg tag? seg out) (by omega)]
      rw [htake]
  · have hnil : words.drop i = [] := List.drop_eq_nil_of_le (by omega)
    rw [segLoopE, dif_neg h, hnil, segLoop]
termination_by words.length - i
decreasing_by
  · omega
  · omega

theorem mergeFromE_eq (arr : List Utt) (i : Nat) :
    mergeFromE arr i = .ok (mergedTranscript (arr.drop i)) := by
  by_cases h : i < arr.length
  · have hget : arr[i]? = some arr[i] := List.getElem?_eq_getElem h
    have hdrop : arr.drop i = arr[i] :: arr.drop (i + 1) :=
      List.drop_eq_getElem_cons h
    rw [mergeFromE, dif_pos h]
    by_cases h2 : i < arr.length - 1
    · have h2' : i + 1 < arr.length := by omega
      have hget2 : arr[i + 1]? = some arr[i + 1] := List.getElem?_eq_getElem h2'
      have hdrop2 : arr.drop (i + 1) = arr[i + 1] :: arr.drop (i + 2) :=
        List.drop_eq_getElem_cons h2'
      simp only [hget, hget2, if_pos h2]
      by_cases hc : wordCount arr[i].transcript < 3 ∧
          arr[i].speaker = arr[i + 1].speaker
      · rw [if_pos hc]
        rw [mergeFromE_eq (arr.set (i + 1) (mergeNext arr[i] arr[i + 1])) (i + 1)]
        have hds : (arr.set (i + 1) (mergeNext arr[i] arr[i + 1])).drop (i + 1) =
            mergeNext arr[i] arr[i + 1] :: arr.drop (i + 2) := by
          rw [List.drop_eq_getElem_cons (by simpa using h2')]
          congr 1
          · simp
          · apply List.drop_set_of_lt
            omega
        rw [hds, hdrop, hdrop2]
        simp only [mergedTranscript, mergeRun, if_pos hc]
      · rw [if_neg hc]
        rw [mergeFromE_eq arr (i + 1)]
        rw [hdrop, hdrop2]
        simp only [mergedTranscript, mergeRun, if_neg hc]
    · have hnil : arr.drop (i + 1) = [] := List.drop_eq_nil_of_le (by omega)
      simp only [hget, if_neg h2]
      rw [mergeFromE_eq arr (i + 1)]
      rw [hdrop, hnil]
      simp [mergedTranscript, mergeRun]
  · have hnil : arr.drop i = [] := List.drop_eq_nil_of_le (by omega)
    rw [mergeFromE, dif_neg h, hnil]
    rfl
termination_by arr.length - i
decreasing_by
  · simp only [List.length_set]; omega
  · omega
  · omega

/-- C9: the diarization block is a total function: the transliterated
handler, in which every array subscript may signal an error, never does
so and agrees with the pure builder on every input, whatever the
combination of missing speaker tags, missing times, empty input or
blank texts. -/
theorem c9_total (words : List Word) :
    diarizeE words = .ok (buildTranscript words) := by
  unfold diarizeE buildTranscript
  by_cases h : words.length = 0
  · rw [if_pos h, if_pos h]
  · rw [if_neg h, if_neg h]
    simp only [segLoopE_eq words 0 none ⟨[], none, none⟩ [] (by omega)]
    rw [mergeFromE_eq]
    rfl

end Diarize
